import Mathlib

/-!
Shallow embedding of the expense-tracker application (`src/script.js`).

The program keeps a global list `expenses` of expense records, validates
form input, prepends new records, deletes by id via `Array.filter`,
persists the list to a LocalStorage slot as JSON, and recomputes summary
statistics (total, count, top-spending category) after every mutation.

Modelling conventions:
* JavaScript numbers are modelled as `ℚ` (the claims only exercise exact
  decimal arithmetic; no float-rounding behaviour is at stake in them).
* `parseFloat` on the amount field is modelled as `Option ℚ`, `none`
  standing for `NaN`.
* DOM reads (`amountInput.value`, `descriptionInput.value`, ...) are
  gathered into an `InputState` snapshot; DOM writes (renders, the
  transient error box) are modelled as pure return values.
* `Date.now()` is an explicit `now : Nat` parameter.
* `confirm(...)` prompts are explicit `Bool` parameters.
* `JSON.stringify`/`JSON.parse` work through a `Json` value type; the
  platform guarantee that parsing the stringified text re-creates the
  value is taken at the value level, so serialization is
  `List Expense → Json`.
-/

namespace ExpenseTracker

/-- One expense record, the object literal built in `addExpense`
(`script.js` lines 141-147): `id` from `Date.now()`, `amount` from
`parseFloat`, trimmed `description`, `category`, `date`. -/
structure Expense where
  id : Nat
  amount : ℚ
  description : String
  category : String
  date : String
deriving Repr, DecidableEq

/-- Snapshot of the four form fields as `validateInput`/`addExpense` read
them. `amountValue` is the result of `parseFloat(amountInput.value)`,
with `none` for `NaN` (missing or unparsable text). -/
structure InputState where
  amountValue : Option ℚ
  descriptionValue : String
  categoryValue : String
  dateValue : String
deriving Repr, DecidableEq

/-- The JavaScript `String.prototype.trim` used on the description
field: remove whitespace from both ends of the string.  (Implemented
at the character-list level so that it is kernel-executable; Lean's own
`String.trim` is extensionally the same operation but is defined by
well-founded recursion on byte positions.) -/
def jsTrim (s : String) : String :=
  String.mk (((s.data.dropWhile Char.isWhitespace).reverse.dropWhile
    Char.isWhitespace).reverse)

/-- The `showError` message of the amount check in `validateInput`. -/
def amountErrMsg : String := "Please enter a valid amount greater than 0"

/-- The `showError` message of the description check in `validateInput`. -/
def descriptionErrMsg : String := "Please enter a description"

/-- The `showError` message of the date check in `validateInput`. -/
def dateErrMsg : String := "Please select a date"

/-- `validateInput` (`script.js` lines 103-126).  Returns the `showError`
message on failure and `none` on success.  `!amount || amount <= 0`
rejects `NaN` (our `none`), `0` and negatives; the description check uses
the trimmed text; the date check rejects the empty string (falsy). -/
def validateInput (inp : InputState) : Option String :=
  match inp.amountValue with
  | none => some amountErrMsg
  | some amount =>
    if amount = 0 ∨ amount ≤ 0 then some amountErrMsg
    else if jsTrim inp.descriptionValue = "" then some descriptionErrMsg
    else if inp.dateValue = "" then some dateErrMsg
    else none

/-- `addExpense` (`script.js` lines 136-159): abort when validation
fails, otherwise build the record and `unshift` it (prepend). -/
def addExpense (now : Nat) (inp : InputState) (expenses : List Expense) :
    List Expense :=
  match validateInput inp with
  | some _ => expenses
  | none =>
    let expense : Expense :=
      { id := now
        amount := inp.amountValue.getD 0
        description := jsTrim inp.descriptionValue
        category := inp.categoryValue
        date := inp.dateValue }
    expense :: expenses

/-- `deleteExpense` (`script.js` lines 165-178): only after the user
confirms, keep exactly the records whose id differs
(`expenses.filter(expense => expense.id !== id)`). -/
def deleteExpense (confirmed : Bool) (delId : Nat)
    (expenses : List Expense) : List Expense :=
  if confirmed then expenses.filter (fun e => e.id ≠ delId) else expenses

/-- `clearAllExpenses` (`script.js` lines 194-208): no-op (with a warning
message) on an empty list, otherwise empty the list after confirmation. -/
def clearAllExpenses (confirmed : Bool) (expenses : List Expense) :
    List Expense :=
  if expenses = [] then expenses
  else if confirmed then [] else expenses

/-- The filtered list computed inside `renderExpenses`
(`script.js` lines 220-225): `filter === 'all' ? expenses :
expenses.filter(e => e.category === filter)`. -/
def visibleExpenses (expenses : List Expense) (filterVal : String) :
    List Expense :=
  if filterVal = "all" then expenses
  else expenses.filter (fun e => e.category = filterVal)

/-- The per-category accumulator object built by the `reduce` in
`updateSummary` (`script.js` lines 284-287):
`acc[expense.category] = (acc[expense.category] || 0) + expense.amount`.
A JavaScript object with non-numeric string keys enumerates its
properties in insertion order, so it is an insertion-ordered
association list. -/
def categoryStep (acc : List (String × ℚ)) (e : Expense) : List (String × ℚ) :=
  if acc.any (fun p => p.1 = e.category) then
    acc.map (fun p => if p.1 = e.category then (p.1, p.2 + e.amount) else p)
  else acc ++ [(e.category, e.amount)]

/-- The accumulated per-category totals of the whole list (the finished
`reduce`). -/
def categoryTotals (expenses : List Expense) : List (String × ℚ) :=
  expenses.foldl categoryStep []

/-- The comparator `(a, b) => b[1] - a[1]` passed to `Array.sort` in
`updateSummary` (`script.js` line 291), as the "may come first" boolean
relation of a stable sort: `a` may precede `b` iff `b.2 ≤ a.2`
(descending by summed amount).  `Array.prototype.sort` is stable. -/
def byDescTotal (a b : String × ℚ) : Bool := b.2 ≤ a.2

/-- The three summary outputs written by `updateSummary`.  `total` is the
number written into `totalAmount` (before `toFixed(2)` display
formatting), `count` the list length, and `topCategory` the category
code whose label/emoji is displayed, with `none` for the `'-'` no-data
sentinel.  (The code maps the winning code through the category label
table in the DOM before display; that lookup table lives in the HTML.) -/
structure Summary where
  total : ℚ
  count : Nat
  topCategory : Option String
deriving Repr, DecidableEq

/-- `updateSummary` (`script.js` lines 269-298) as a pure function of the
list: total via `reduce((sum, e) => sum + e.amount, 0)`, count via
`length`, and the top category as the first entry of the per-category
totals sorted (stably) by descending sum — `none` when the list is
empty. -/
def updateSummary (expenses : List Expense) : Summary :=
  { total := expenses.foldl (fun sum e => sum + e.amount) 0
    count := expenses.length
    topCategory :=
      if expenses.length = 0 then none
      else ((categoryTotals expenses).mergeSort byDescTotal).head?.map Prod.fst }

/-- JSON values, the interchange format of `JSON.stringify`/`JSON.parse`
used by the LocalStorage persistence layer. -/
inductive Json where
  | null : Json
  | bool : Bool → Json
  | num : ℚ → Json
  | str : String → Json
  | arr : List Json → Json
  | obj : List (String × Json) → Json
deriving Repr

/-- Serialized field name of `Expense.id`. -/
def idKey : String := "id"

/-- Serialized field name of `Expense.amount`. -/
def amountKey : String := "amount"

/-- Serialized field name of `Expense.description`. -/
def descriptionKey : String := "description"

/-- Serialized field name of `Expense.category`. -/
def categoryKey : String := "category"

/-- Serialized field name of `Expense.date`. -/
def dateKey : String := "date"

/-- The JSON value `JSON.stringify` receives for one record in
`saveExpenses` (`script.js` line 56): an object with the five fields
`id`, `amount`, `description`, `category`, `date`. -/
def serializeExpense (e : Expense) : Json :=
  Json.obj
    [(idKey, Json.num (e.id : ℚ)),
     (amountKey, Json.num e.amount),
     (descriptionKey, Json.str e.description),
     (categoryKey, Json.str e.category),
     (dateKey, Json.str e.date)]

/-- The JSON value of the whole persisted snapshot: the array of the
serialized records, in list order. -/
def serializeExpenses (expenses : List Expense) : Json :=
  Json.arr (expenses.map serializeExpense)

/-- Read a JSON value back as a record id (a non-negative integer
number). -/
def jsonId (j : Json) : Option Nat :=
  match j with
  | Json.num q => if q.den = 1 ∧ 0 ≤ q.num then some q.num.toNat else none
  | _ => none

/-- Read a JSON value back as a number. -/
def jsonNumber (j : Json) : Option ℚ :=
  match j with
  | Json.num q => some q
  | _ => none

/-- Read a JSON value back as a string. -/
def jsonString (j : Json) : Option String :=
  match j with
  | Json.str s => some s
  | _ => none

/-- Modelled from the spec: decoding one persisted record.  The source
has no explicit decoder — `loadExpenses` assigns whatever `JSON.parse`
returns and later code reads the five fields of §3/§6 (`id`, `amount`,
`description`, `category`, `date`) off each element; this function is
that field-wise reading, failing when a field is absent or of the wrong
type. -/
def deserializeExpense (j : Json) : Option Expense :=
  match j with
  | Json.obj fields =>
    match jsonId ((fields.lookup idKey).getD Json.null),
          jsonNumber ((fields.lookup amountKey).getD Json.null),
          jsonString ((fields.lookup descriptionKey).getD Json.null),
          jsonString ((fields.lookup categoryKey).getD Json.null),
          jsonString ((fields.lookup dateKey).getD Json.null) with
    | some i, some a, some d, some c, some dt =>
        some { id := i, amount := a, description := d, category := c, date := dt }
    | _, _, _, _, _ => none
  | _ => none

/-- Modelled from the spec: decoding a sequence of persisted records,
failing as soon as one element fails. -/
def deserializeList (items : List Json) : Option (List Expense) :=
  match items with
  | [] => some []
  | j :: js =>
    match deserializeExpense j, deserializeList js with
    | some e, some es => some (e :: es)
    | _, _ => none

/-- Modelled from the spec: decoding the persisted snapshot — a JSON
array each of whose elements decodes as a record. -/
def deserializeExpenses (j : Json) : Option (List Expense) :=
  match j with
  | Json.arr items => deserializeList items
  | _ => none

/-- `loadExpenses` (`script.js` lines 36-48), at the raw JSON-value
level: the value bound to the global `expenses` after the load.
`stored = localStorage.getItem('expenses')` is `none` when the slot is
absent; `if (stored)` skips both `null` and the empty string (both
falsy), leaving the initial `[]`; `JSON.parse` throwing (modelled by
`parse s = none`) is caught and yields `[]`; but a successful parse is
assigned UNCHECKED, whatever shape the value has. -/
def loadExpensesRaw (parse : String → Option Json) (stored : Option String) :
    Json :=
  match stored with
  | none => Json.arr []
  | some s =>
    if s = "" then Json.arr []
    else
      match parse s with
      | none => Json.arr []
      | some v => v

/-- Spec-level per-category sum: the summed `amount` of the records of
category `c`, the quantity `categoryTotals` accumulates per key. -/
def categorySum (expenses : List Expense) (c : String) : ℚ :=
  ((expenses.filter (fun e => e.category = c)).map Expense.amount).sum

/-- The key sequence of an insertion-ordered object: each element of
`cs` in order of first occurrence.  `categoryTotals` produces its keys
in exactly this order (JavaScript object property order). -/
def insertionKeys (cs : List String) : List String :=
  cs.foldl (fun ks c => if c ∈ ks then ks else ks ++ [c]) []

/-- Index of the first record of category `c` (the record's position in
the stored newest-first list). -/
def catFirstIdx (expenses : List Expense) (c : String) : Nat :=
  expenses.findIdx (fun e => e.category = c)

/-- One user-triggered operation of the system, with its external
non-determinism made explicit: the clock reading, the form snapshot,
the `confirm(...)` answer, and whether the LocalStorage write succeeds. -/
inductive Op where
  | addOp (now : Nat) (inp : InputState) (saveOk : Bool)
  | removeOp (confirmed : Bool) (delId : Nat) (saveOk : Bool)
  | clearOp (confirmed : Bool) (saveOk : Bool)
  | loadOp

/-- Whole-system state: the in-memory list and the persistence slot.
The slot is typed `Option (List Expense)` because this session is the
slot's only writer (spec §5) and every write is `serializeExpenses` of
the current list, which round-trips (see the round-trip theorem), so the
slot always holds a previously saved list — or nothing on a fresh
start. -/
structure SysState where
  expenses : List Expense
  slot : Option (List Expense)
deriving Repr, DecidableEq

/-- One step of the system.  `addOp` mirrors `addExpense` (early return
on validation failure, otherwise prepend then `saveExpenses`, whose
failure leaves the slot unchanged but keeps the in-memory list);
`removeOp` mirrors `deleteExpense` (guarded by `confirm`); `clearOp`
mirrors `clearAllExpenses` (no-op on empty, guarded by `confirm`);
`loadOp` mirrors `loadExpenses` on a self-written slot (absent slot
leaves the list as is, present slot replaces it). -/
def applyOp (s : SysState) (op : Op) : SysState :=
  match op with
  | Op.addOp now inp saveOk =>
    match validateInput inp with
    | some _ => s
    | none =>
      let es := addExpense now inp s.expenses
      { expenses := es, slot := if saveOk then some es else s.slot }
  | Op.removeOp confirmed delId saveOk =>
    if confirmed then
      let es := deleteExpense true delId s.expenses
      { expenses := es, slot := if saveOk then some es else s.slot }
    else s
  | Op.clearOp confirmed saveOk =>
    if s.expenses = [] then s
    else if confirmed then
      { expenses := [], slot := if saveOk then some [] else s.slot }
    else s
  | Op.loadOp =>
    match s.slot with
    | none => s
    | some l => { expenses := l, slot := s.slot }

/-- Fresh-start state: empty list, nothing persisted yet. -/
def initialState : SysState := { expenses := [], slot := none }

/-- Run a whole session: a sequence of user operations from a fresh
start. -/
def runOps (ops : List Op) : SysState := ops.foldl applyOp initialState

/-- A valid form snapshot: positive amount, non-blank description,
date present. -/
def validDemoInput : InputState :=
  { amountValue := some 5
    descriptionValue := "coffee"
    categoryValue := "food"
    dateValue := "2025-01-03" }

/-- A form snapshot with a negative amount. -/
def negativeDemoInput : InputState :=
  { amountValue := some (-4)
    descriptionValue := "snack"
    categoryValue := "food"
    dateValue := "2025-01-03" }

/-- A pre-existing record with id `1000`. -/
def oldExpense : Expense :=
  { id := 1000
    amount := 3
    description := "tea"
    category := "food"
    date := "2025-01-01" }

/-- A second pre-existing record, distinct id. -/
def otherExpense : Expense :=
  { id := 1001
    amount := 2
    description := "bus"
    category := "travel"
    date := "2025-01-02" }

/-- First of two records sharing id `7`. -/
def dupExpenseA : Expense :=
  { id := 7
    amount := 5
    description := "apples"
    category := "food"
    date := "2025-01-01" }

/-- Second of two records sharing id `7`. -/
def dupExpenseB : Expense :=
  { id := 7
    amount := 3
    description := "bus"
    category := "travel"
    date := "2025-01-02" }

/-- Slot content that is valid JSON but not an expense array. -/
def fiveText : String := "5"

/-- Slot content that is not parseable JSON at all. -/
def garbageText : String := "garbage"

/-- A concrete stand-in for the platform `JSON.parse` on the inputs the
load-failure analysis uses: the text `5` parses to the JSON number `5`
(as `JSON.parse` does), everything else is a syntax error. -/
def parseDemo : String → Option Json :=
  fun s => if s = "5" then some (Json.num 5) else none

/-- Record of the spec §8 summary example: amount 100, category food. -/
def summaryDemoFood1 : Expense :=
  { id := 3
    amount := 100
    description := "lunch"
    category := "food"
    date := "2025-01-03" }

/-- Record of the spec §8 summary example: amount 50, category food. -/
def summaryDemoFood2 : Expense :=
  { id := 2
    amount := 50
    description := "snack"
    category := "food"
    date := "2025-01-02" }

/-- Record of the spec §8 summary example: amount 30, category
transport. -/
def summaryDemoTransport : Expense :=
  { id := 1
    amount := 30
    description := "bus"
    category := "transport"
    date := "2025-01-01" }

/-- The spec §8 summary example list. -/
def summaryDemoList : List Expense :=
  [summaryDemoFood1, summaryDemoFood2, summaryDemoTransport]

/-- The record `addExpense` builds from `validDemoInput` at time `1000`. -/
def freshDemoExpense : Expense :=
  { id := 1000
    amount := 5
    description := "coffee"
    category := "food"
    date := "2025-01-03" }

/-- The empty string (the falsy empty slot content). -/
def emptyText : String := ""

/-- Category filter value selecting every record. -/
def allCat : String := "all"

/-- The food category code. -/
def foodCat : String := "food"

/-- The transport category code. -/
def transportCat : String := "transport"

/-- Tie-break demo: newest record, food, amount 50. -/
def tieDemoFood : Expense :=
  { id := 11
    amount := 50
    description := "pie"
    category := "food"
    date := "2025-01-05" }

/-- Tie-break demo: older record, transport, amount 50. -/
def tieDemoTransport : Expense :=
  { id := 10
    amount := 50
    description := "cab"
    category := "transport"
    date := "2025-01-04" }

/-- Tie-break demo list: food and transport both sum to 50; food occurs
first in stored order. -/
def tieDemoList : List Expense := [tieDemoFood, tieDemoTransport]

/-- The data-model invariant on a whole system state: every in-memory
record and every record of the persisted snapshot has a positive amount
and a non-empty description. -/
def stateOk (s : SysState) : Prop :=
  (∀ e ∈ s.expenses, 0 < e.amount ∧ e.description ≠ "") ∧
  (∀ l, s.slot = some l → ∀ e ∈ l, 0 < e.amount ∧ e.description ≠ "")

/-! ## Persistence round trip (C2) and load behaviour (C1) -/

/-- One serialized record decodes back to itself, all five fields and
their types included. -/
theorem round_trip_expense (e : Expense) :
    deserializeExpense (serializeExpense e) = some e := by
  simp [serializeExpense, deserializeExpense, List.lookup, jsonId, jsonNumber, jsonString,
    idKey, amountKey, descriptionKey, categoryKey, dateKey]

/-- C2: deserializing the serialization of any valid expense list yields
the same list field-for-field, including id values and field types (the
adapter's round-trip contract, at the JSON value level). -/
theorem c2_serialize_round_trip (expenses : List Expense) :
    deserializeExpenses (serializeExpenses expenses) = some expenses := by
  induction expenses with
  | nil => rfl
  | cons e t ih =>
    simp only [serializeExpenses, deserializeExpenses, List.map_cons, deserializeList] at ih ⊢
    rw [round_trip_expense e, ih]

/-- C1: the load path only recovers from an absent slot, an empty slot,
or slot text that fails to parse as JSON — all three yield the empty
array.  But slot content that parses to a non-array JSON value (here the
text `5`, which `JSON.parse` maps to the JSON number 5, as `parseDemo`
records) is bound to `expenses` unchecked: the loaded state is not the
empty list, decodes as no expense list at all, and is not the
serialization of any list, so the subsequent render throws instead of
falling back to an empty list. -/
theorem c1_load_code_bug :
    loadExpensesRaw parseDemo none = Json.arr [] ∧
    loadExpensesRaw parseDemo (some emptyText) = Json.arr [] ∧
    loadExpensesRaw parseDemo (some garbageText) = Json.arr [] ∧
    loadExpensesRaw parseDemo (some fiveText) = Json.num 5 ∧
    deserializeExpenses (Json.num 5) = none ∧
    (∀ l : List Expense, Json.num 5 ≠ serializeExpenses l) :=
  ⟨rfl, rfl, rfl, rfl, rfl, fun _ h => Json.noConfusion h⟩

/-! ## Validation and the add operation (C5, C3) -/

/-- C5: on a missing/unparsable amount, a non-positive amount, or a
description that is blank after trimming, validation produces an error
message (the validation-failure signal) and `addExpense` leaves the list
untouched. -/
theorem c5_invalid_input_is_noop (now : Nat) (inp : InputState) (expenses : List Expense)
    (h : inp.amountValue = none ∨ (∃ a, inp.amountValue = some a ∧ a ≤ 0) ∨
      jsTrim inp.descriptionValue = "") :
    (validateInput inp).isSome ∧ addExpense now inp expenses = expenses := by
  have hv : (validateInput inp).isSome := by
    rcases h with h | ⟨a, ha, hle⟩ | h
    · simp [validateInput, h]
    · simp [validateInput, ha, hle]
    · unfold validateInput
      cases inp.amountValue with
      | none => simp
      | some a => simp [h]; split <;> simp
  obtain ⟨m, hm⟩ := Option.isSome_iff_exists.mp hv
  exact ⟨hv, by simp [addExpense, hm]⟩

/-- Witness for C5 at a concrete negative-amount input. -/
theorem c5_witness :
    (validateInput negativeDemoInput).isSome ∧
    addExpense 1 negativeDemoInput [oldExpense] = [oldExpense] :=
  c5_invalid_input_is_noop 1 negativeDemoInput [oldExpense]
    (Or.inr (Or.inl ⟨-4, rfl, by norm_num⟩))

/-- C3 counterexample: with a valid draft and a prior list already
containing the id `1000`, an add at clock reading `1000` (`Date.now()`
can repeat, e.g. two adds in the same millisecond) prepends a record
whose id is already present in the prior list — the freshness part of
the claim fails. -/
theorem c3_counterexample :
    validateInput validDemoInput = none ∧
    addExpense 1000 validDemoInput [oldExpense] = freshDemoExpense :: [oldExpense] ∧
    freshDemoExpense.id ∈ [oldExpense].map Expense.id := by
  have hv : validateInput validDemoInput = none := by
    norm_num [validateInput, validDemoInput]; decide
  refine ⟨hv, ?_, by decide⟩
  simp [addExpense, hv, validDemoInput, freshDemoExpense]
  decide

/-- C3 (amended): provided every existing id comes from an earlier clock
reading than the add's `Date.now()` value, a valid add prepends exactly
one record whose id is the current reading and not present in the prior
list, and the list grows by exactly one. -/
theorem c3_add_fresh_prepend (now : Nat) (inp : InputState) (expenses : List Expense)
    (hvalid : validateInput inp = none)
    (hclock : ∀ e ∈ expenses, e.id < now) :
    ∃ rec : Expense,
      addExpense now inp expenses = rec :: expenses ∧
      rec.id = now ∧
      rec.id ∉ expenses.map Expense.id ∧
      (addExpense now inp expenses).length = expenses.length + 1 := by
  have hadd : addExpense now inp expenses =
      { id := now
        amount := inp.amountValue.getD 0
        description := jsTrim inp.descriptionValue
        category := inp.categoryValue
        date := inp.dateValue } :: expenses := by
    simp [addExpense, hvalid]
  refine ⟨_, hadd, rfl, ?_, by rw [hadd]; simp⟩
  intro hmem
  simp only [List.mem_map] at hmem
  obtain ⟨e, he, hid⟩ := hmem
  have := hclock e he
  omega

/-- Witness for C3 (amended) at a concrete valid draft and clock
reading. -/
theorem c3_witness :
    ∃ rec : Expense,
      addExpense 2000 validDemoInput [oldExpense] = rec :: [oldExpense] ∧
      rec.id = 2000 ∧
      rec.id ∉ [oldExpense].map Expense.id ∧
      (addExpense 2000 validDemoInput [oldExpense]).length = [oldExpense].length + 1 :=
  c3_add_fresh_prepend 2000 validDemoInput [oldExpense]
    (by norm_num [validateInput, validDemoInput]; decide) (by decide)

/-! ## The remove operation (C4) -/

/-- On a confirmed delete, the list becomes the filter keeping the other
ids. -/
theorem deleteExpense_true_eq (delId : Nat) (expenses : List Expense) :
    deleteExpense true delId expenses = expenses.filter (fun e => e.id ≠ delId) := by
  simp [deleteExpense]

/-- Deleting an id that is not present leaves the list unchanged. -/
theorem deleteExpense_not_mem (expenses : List Expense) (delId : Nat)
    (h : delId ∉ expenses.map Expense.id) :
    deleteExpense true delId expenses = expenses := by
  rw [deleteExpense_true_eq]
  apply List.filter_eq_self.mpr
  intro e he
  have : e.id ≠ delId := fun hid => h (List.mem_map.mpr ⟨e, he, hid⟩)
  simpa using this

/-- With pairwise-distinct ids, filtering out one present id removes
exactly one record. -/
theorem length_filter_ne_of_mem (expenses : List Expense) (delId : Nat)
    (hnodup : (expenses.map Expense.id).Nodup)
    (hmem : delId ∈ expenses.map Expense.id) :
    (expenses.filter (fun e => e.id ≠ delId)).length + 1 = expenses.length := by
  induction expenses with
  | nil => simp at hmem
  | cons x t ih =>
    simp only [List.map_cons, List.nodup_cons] at hnodup
    simp only [List.map_cons, List.mem_cons] at hmem
    by_cases hx : x.id = delId
    · have hrest : t.filter (fun e => decide (e.id ≠ delId)) = t :=
        List.filter_eq_self.mpr (fun e he => by
          have : e.id ≠ delId := by
            intro hid
            apply hnodup.1
            rw [hx, ← hid]
            exact List.mem_map.mpr ⟨e, he, rfl⟩
          simpa using this)
      rw [List.filter_cons_of_neg (by simpa using hx)]
      rw [hrest]
      simp
    · rcases hmem with hm | hm
      · exact absurd hm.symm hx
      · rw [List.filter_cons_of_pos (by simpa using hx)]
        have := ih hnodup.2 hm
        simp only [List.length_cons]
        omega

/-- C4 counterexample: on a list in which two records share id `7`
(reachable, e.g. two adds in the same millisecond), a confirmed
`deleteExpense(7)` removes both records, so the result does not have
size minus one as the claim states for every list. -/
theorem c4_counterexample :
    (7 ∈ [dupExpenseA, dupExpenseB].map Expense.id) ∧
    (deleteExpense true 7 [dupExpenseA, dupExpenseB]).length ≠
      [dupExpenseA, dupExpenseB].length - 1 := by
  constructor
  · decide
  · norm_num [deleteExpense, dupExpenseA, dupExpenseB]

/-- C4 (amended): a confirmed remove of an absent id is a no-op on
every list, and on a list with pairwise-distinct ids (the data-model
invariant) a confirmed remove of a present id yields a list of size
minus one with no record of that id remaining. -/
theorem c4_remove_semantics (expenses : List Expense) (delId : Nat) :
    (delId ∉ expenses.map Expense.id → deleteExpense true delId expenses = expenses) ∧
    ((expenses.map Expense.id).Nodup →
      delId ∈ expenses.map Expense.id →
      (deleteExpense true delId expenses).length + 1 = expenses.length ∧
      ∀ e ∈ deleteExpense true delId expenses, e.id ≠ delId) := by
  refine ⟨deleteExpense_not_mem expenses delId, fun hnodup hmem => ⟨?_, ?_⟩⟩
  · rw [deleteExpense_true_eq]
    exact length_filter_ne_of_mem expenses delId hnodup hmem
  · intro e he
    rw [deleteExpense_true_eq] at he
    have := (List.mem_filter.mp he).2
    simpa using this

/-- Witness for C4 (amended): one absent-id delete and one present-id
delete on a concrete two-record list with distinct ids. -/
theorem c4_witness :
    deleteExpense true 999 [oldExpense, otherExpense] = [oldExpense, otherExpense] ∧
    (deleteExpense true 1000 [oldExpense, otherExpense]).length + 1 = 2 :=
  ⟨(c4_remove_semantics [oldExpense, otherExpense] 999).1 (by decide),
   ((c4_remove_semantics [oldExpense, otherExpense] 1000).2 (by decide) (by decide)).1⟩

/-! ## Category filtering (C9) and the empty summary (C8) -/

/-- C9: with filter value `all` the visible list is the whole list in
order; with any other filter value it is exactly the subsequence (a
sublist, so relative order is preserved) of the records of that
category, containing each matching record with its full multiplicity and
nothing else. -/
theorem c9_visible_filtering (expenses : List Expense) (filterVal : String) :
    (filterVal = "all" → visibleExpenses expenses filterVal = expenses) ∧
    (filterVal ≠ "all" →
      (visibleExpenses expenses filterVal).Sublist expenses ∧
      (∀ e ∈ visibleExpenses expenses filterVal, e.category = filterVal) ∧
      (∀ e : Expense,
        (visibleExpenses expenses filterVal).count e =
          if e.category = filterVal then expenses.count e else 0)) := by
  constructor
  · intro h; simp [visibleExpenses, h]
  · intro h
    refine ⟨?_, ?_, ?_⟩
    · simp only [visibleExpenses, if_neg h]
      exact List.filter_sublist _
    · intro e he
      simp only [visibleExpenses, if_neg h, List.mem_filter, decide_eq_true_eq] at he
      exact he.2
    · intro e
      simp only [visibleExpenses, if_neg h]
      by_cases hc : e.category = filterVal
      · rw [if_pos hc, List.count_filter (by simp [hc])]
      · rw [if_neg hc, List.count_eq_zero]
        simp [List.mem_filter, hc]

/-- Witness for C9: the all-filter returns a concrete list unchanged,
and the food filter keeps exactly the food record. -/
theorem c9_witness :
    visibleExpenses [oldExpense, otherExpense] allCat = [oldExpense, otherExpense] ∧
    (∀ e ∈ visibleExpenses [oldExpense, otherExpense] foodCat, e.category = foodCat) ∧
    (visibleExpenses [oldExpense, otherExpense] foodCat).count oldExpense =
      [oldExpense, otherExpense].count oldExpense :=
  ⟨(c9_visible_filtering [oldExpense, otherExpense] allCat).1 rfl,
   ((c9_visible_filtering [oldExpense, otherExpense] foodCat).2 (by decide)).2.1,
   by
    have h := (((c9_visible_filtering [oldExpense, otherExpense] foodCat).2
      (by decide)).2.2) oldExpense
    rw [h, if_pos (by decide)]⟩

/-- C8: on the empty list the summary is total `0` (displayed as `0.00`
after `toFixed(2)` formatting), count `0`, and the defined no-data
sentinel (`'-'`, modelled as `none`) for the top category — no error. -/
theorem c8_summary_of_empty :
    updateSummary [] = { total := 0, count := 0, topCategory := none } := rfl

/-! ## Reachable-state invariant (C6) -/

/-- A draft that passes validation has a parsed positive amount and a
non-blank trimmed description. -/
theorem validateInput_none_shape (inp : InputState)
    (h : validateInput inp = none) :
    ∃ a, inp.amountValue = some a ∧ 0 < a ∧ jsTrim inp.descriptionValue ≠ "" := by
  unfold validateInput at h
  cases ha : inp.amountValue with
  | none => rw [ha] at h; simp at h
  | some a =>
    rw [ha] at h
    by_cases h1 : a = 0 ∨ a ≤ 0
    · simp [h1] at h
    · by_cases h2 : jsTrim inp.descriptionValue = ""
      · simp [h1, h2] at h
      · push_neg at h1
        exact ⟨a, rfl, h1.2, h2⟩

/-- Adding preserves positivity of amounts and non-emptiness of
descriptions. -/
theorem addExpense_preserves (now : Nat) (inp : InputState) (es : List Expense)
    (hinv : ∀ e ∈ es, 0 < e.amount ∧ e.description ≠ "") :
    ∀ e ∈ addExpense now inp es, 0 < e.amount ∧ e.description ≠ "" := by
  intro e he
  cases hv : validateInput inp with
  | some m =>
    simp only [addExpense, hv] at he
    exact hinv e he
  | none =>
    obtain ⟨a, ha, hpos, hdesc⟩ := validateInput_none_shape inp hv
    simp only [addExpense, hv] at he
    rcases List.mem_cons.mp he with rfl | he
    · exact ⟨by simpa [ha] using hpos, hdesc⟩
    · exact hinv e he

/-- Deleting preserves positivity of amounts and non-emptiness of
descriptions. -/
theorem deleteExpense_preserves (delId : Nat) (es : List Expense)
    (hinv : ∀ e ∈ es, 0 < e.amount ∧ e.description ≠ "") :
    ∀ e ∈ deleteExpense true delId es, 0 < e.amount ∧ e.description ≠ "" := by
  intro e he
  simp only [deleteExpense, if_pos rfl] at he
  exact hinv e (List.mem_filter.mp he).1

/-- Every single operation preserves the whole-state invariant. -/
theorem applyOp_preserves (s : SysState) (op : Op) (h : stateOk s) :
    stateOk (applyOp s op) := by
  obtain ⟨hes, hslot⟩ := h
  cases op with
  | addOp now inp saveOk =>
    cases hv : validateInput inp with
    | some m => simpa [applyOp, hv] using ⟨hes, hslot⟩
    | none =>
      have hnew := addExpense_preserves now inp s.expenses hes
      refine ⟨?_, ?_⟩
      · simpa [applyOp, hv] using hnew
      · intro l hl
        simp only [applyOp, hv] at hl
        by_cases hsv : saveOk = true
        · rw [if_pos hsv] at hl
          cases hl
          exact hnew
        · rw [if_neg hsv] at hl
          exact hslot l hl
  | removeOp confirmed delId saveOk =>
    cases confirmed with
    | false => simpa [applyOp] using ⟨hes, hslot⟩
    | true =>
      have hnew := deleteExpense_preserves delId s.expenses hes
      refine ⟨?_, ?_⟩
      · simpa [applyOp] using hnew
      · intro l hl
        simp only [applyOp, if_pos rfl] at hl
        by_cases hsv : saveOk = true
        · rw [if_pos hsv] at hl
          cases hl
          exact hnew
        · rw [if_neg hsv] at hl
          exact hslot l hl
  | clearOp confirmed saveOk =>
    by_cases hemp : s.expenses = []
    · simpa [applyOp, hemp] using ⟨hes, hslot⟩
    · cases confirmed with
      | false => simpa [applyOp, hemp] using ⟨hes, hslot⟩
      | true =>
        refine ⟨by simp [applyOp, hemp], ?_⟩
        intro l hl
        simp only [applyOp, if_neg hemp, if_pos rfl] at hl
        by_cases hsv : saveOk = true
        · rw [if_pos hsv] at hl
          cases hl
          simp
        · rw [if_neg hsv] at hl
          exact hslot l hl
  | loadOp =>
    cases hs : s.slot with
    | none => simpa [applyOp, hs] using ⟨hes, hslot⟩
    | some l =>
      refine ⟨?_, ?_⟩
      · simpa [applyOp, hs] using hslot l hs
      · intro l2 hl2
        simp only [applyOp, hs] at hl2
        cases hl2
        exact hslot l hs

/-- Invariant preservation along any operation sequence. -/
theorem foldl_applyOp_stateOk (ops : List Op) :
    ∀ s : SysState, stateOk s → stateOk (ops.foldl applyOp s) := by
  induction ops with
  | nil => intro s hs; simpa using hs
  | cons op t ih =>
    intro s hs
    exact ih (applyOp s op) (applyOp_preserves s op hs)

/-- C6: after any sequence of load, add, remove, and clear operations
from a fresh start, every record of the in-memory list has a strictly
positive amount and a non-empty description. -/
theorem c6_reachable_invariant (ops : List Op) :
    ∀ e ∈ (runOps ops).expenses, 0 < e.amount ∧ e.description ≠ "" := by
  have hinit : stateOk initialState := by
    constructor
    · intro e he
      simp [initialState] at he
    · intro l hl
      simp [initialState] at hl
  exact (foldl_applyOp_stateOk ops initialState hinit).1

/-- Witness for C6: the record produced by one concrete valid add has a
positive amount and a non-empty description. -/
theorem c6_witness :
    0 < freshDemoExpense.amount ∧ freshDemoExpense.description ≠ "" := by
  have hv : validateInput validDemoInput = none := by
    norm_num [validateInput, validDemoInput]; decide
  have hrun : (runOps [Op.addOp 1000 validDemoInput true]).expenses = [freshDemoExpense] := by
    simp [runOps, applyOp, initialState, hv, addExpense, validDemoInput, freshDemoExpense]
    decide
  exact c6_reachable_invariant [Op.addOp 1000 validDemoInput true] freshDemoExpense
    (by rw [hrun]; exact List.mem_singleton.mpr rfl)

/-! ## Per-category totals and the top category (C7, C10) -/

/-- Accumulating one more record acts on the finished totals of the
prefix. -/
theorem categoryTotals_append (es : List Expense) (e : Expense) :
    categoryTotals (es ++ [e]) = categoryStep (categoryTotals es) e := by
  simp [categoryTotals, List.foldl_append]

/-- Unfolding `insertionKeys` over one appended element. -/
theorem insertionKeys_append (cs : List String) (c : String) :
    insertionKeys (cs ++ [c]) =
      if c ∈ insertionKeys cs then insertionKeys cs else insertionKeys cs ++ [c] := by
  simp [insertionKeys, List.foldl_append]

/-- The insertion-ordered key list has exactly the elements of the
input. -/
theorem mem_insertionKeys (cs : List String) :
    ∀ c, c ∈ insertionKeys cs ↔ c ∈ cs := by
  induction cs using List.reverseRecOn with
  | nil => intro c; simp [insertionKeys]
  | append_singleton l a ih =>
    intro c
    rw [insertionKeys_append]
    by_cases h : a ∈ insertionKeys l
    · rw [if_pos h]
      have ha : a ∈ l := (ih a).mp h
      rw [ih c]
      simp only [List.mem_append, List.mem_singleton]
      constructor
      · exact Or.inl
      · rintro (hc | rfl)
        · exact hc
        · exact ha
    · rw [if_neg h]
      simp [ih]

/-- The insertion-ordered key list has no duplicates (object keys are
unique). -/
theorem nodup_insertionKeys (cs : List String) : (insertionKeys cs).Nodup := by
  induction cs using List.reverseRecOn with
  | nil => simp [insertionKeys]
  | append_singleton l a ih =>
    rw [insertionKeys_append]
    by_cases h : a ∈ insertionKeys l
    · rwa [if_pos h]
    · rw [if_neg h]
      simp [List.nodup_append, ih, h]

/-- The membership test of `categoryStep` is membership among the keys. -/
theorem any_key_iff (acc : List (String × ℚ)) (c : String) :
    acc.any (fun p => p.1 = c) = true ↔ c ∈ acc.map Prod.fst := by
  simp [List.any_eq_true, List.mem_map]

/-- The totals object lists its keys in order of first occurrence of the
categories. -/
theorem keys_categoryTotals (es : List Expense) :
    (categoryTotals es).map Prod.fst = insertionKeys (es.map Expense.category) := by
  induction es using List.reverseRecOn with
  | nil => rfl
  | append_singleton l e ih =>
    rw [categoryTotals_append]
    simp only [List.map_append, List.map_cons, List.map_nil]
    rw [insertionKeys_append, ← ih]
    unfold categoryStep
    by_cases h : (categoryTotals l).any (fun p => p.1 = e.category)
    · rw [if_pos h, if_pos ((any_key_iff _ _).mp h)]
      rw [List.map_map]
      apply List.map_congr_left
      intro p hp
      by_cases hpc : p.1 = e.category <;> simp [hpc]
    · rw [if_neg h, if_neg (fun hc => h ((any_key_iff _ _).mpr hc))]
      simp

/-- Appending one record adds its amount to its own category sum and to
no other. -/
theorem categorySum_append (es : List Expense) (e : Expense) (c : String) :
    categorySum (es ++ [e]) c =
      categorySum es c + (if e.category = c then e.amount else 0) := by
  unfold categorySum
  rw [List.filter_append, List.map_append, List.sum_append]
  congr 1
  by_cases h : e.category = c <;> simp [List.filter, h]

/-- A category that occurs in no record sums to zero. -/
theorem categorySum_of_not_mem (es : List Expense) (c : String)
    (h : c ∉ es.map Expense.category) : categorySum es c = 0 := by
  unfold categorySum
  have : es.filter (fun e => e.category = c) = [] := by
    rw [List.filter_eq_nil_iff]
    intro e he
    simp only [decide_eq_true_eq]
    intro hc
    exact h (List.mem_map.mpr ⟨e, he, hc⟩)
  rw [this]
  rfl

/-- Every entry of the totals object carries exactly the per-category
sum of its key. -/
theorem value_categoryTotals (es : List Expense) :
    ∀ p ∈ categoryTotals es, p.2 = categorySum es p.1 := by
  induction es using List.reverseRecOn with
  | nil => simp [categoryTotals]
  | append_singleton l e ih =>
    intro p hp
    rw [categoryTotals_append] at hp
    unfold categoryStep at hp
    by_cases h : (categoryTotals l).any (fun q => q.1 = e.category)
    · rw [if_pos h] at hp
      obtain ⟨q, hq, hfq⟩ := List.mem_map.mp hp
      by_cases hqc : q.1 = e.category
      · rw [if_pos hqc] at hfq
        rw [← hfq]
        rw [categorySum_append, if_pos hqc.symm, ← ih q hq]
      · rw [if_neg hqc] at hfq
        rw [← hfq]
        rw [categorySum_append, if_neg (fun hh => hqc hh.symm), ← ih q hq]
        ring
    · rw [if_neg h] at hp
      have hnotkey : e.category ∉ l.map Expense.category := by
        intro hc
        apply h
        rw [any_key_iff, keys_categoryTotals, mem_insertionKeys]
        exact hc
      rcases List.mem_append.mp hp with hp | hp
      · have hne : p.1 ≠ e.category := by
          intro hc
          apply hnotkey
          rw [← mem_insertionKeys, ← keys_categoryTotals, ← hc]
          exact List.mem_map.mpr ⟨p, hp, rfl⟩
        rw [categorySum_append, if_neg (fun hh => hne hh.symm), ← ih p hp]
        ring
      · rw [List.mem_singleton] at hp
        rw [hp]
        rw [categorySum_append, if_pos rfl, categorySum_of_not_mem l e.category hnotkey]
        ring

/-- Every category occurring in the list owns an entry of the totals
object holding its sum. -/
theorem entry_of_mem_category (es : List Expense) (c : String)
    (h : c ∈ es.map Expense.category) :
    (c, categorySum es c) ∈ categoryTotals es := by
  have hk : c ∈ (categoryTotals es).map Prod.fst := by
    rw [keys_categoryTotals, mem_insertionKeys]
    exact h
  obtain ⟨p, hp, hfst⟩ := List.mem_map.mp hk
  have hv := value_categoryTotals es p hp
  have : p = (c, categorySum es c) := by
    rw [← hfst, ← hv]
  rw [← this]
  exact hp

/-- The keys of the totals object are pairwise ordered by the position
of their first occurrence in the record list. -/
theorem pairwise_insertionKeys (cs : List String) :
    (insertionKeys cs).Pairwise
      (fun a b => cs.findIdx (fun x => x = a) < cs.findIdx (fun x => x = b)) := by
  induction cs using List.reverseRecOn with
  | nil => simp [insertionKeys]
  | append_singleton l a ih =>
    rw [insertionKeys_append]
    have hidx : ∀ x ∈ insertionKeys l,
        (l ++ [a]).findIdx (fun y => y = x) = l.findIdx (fun y => y = x) := by
      intro x hx
      have hxl : x ∈ l := (mem_insertionKeys l x).mp hx
      have hlt : l.findIdx (fun y => y = x) < l.length :=
        List.findIdx_lt_length_of_exists ⟨x, hxl, by simp⟩
      rw [List.findIdx_append, if_pos hlt]
    by_cases h : a ∈ insertionKeys l
    · rw [if_pos h]
      apply ih.imp_of_mem
      intro x y hx hy hxy
      rw [hidx x hx, hidx y hy]
      exact hxy
    · rw [if_neg h]
      have hal : a ∉ l := fun hc => h ((mem_insertionKeys l a).mpr hc)
      have hflen : l.findIdx (fun y => y = a) = l.length :=
        List.findIdx_eq_length_of_false (fun x hx => by
          simp only [decide_eq_false_iff_not]
          intro hxa
          exact hal (hxa ▸ hx))
      have hidxa : (l ++ [a]).findIdx (fun y => y = a) = l.length := by
        rw [List.findIdx_append, if_neg (by rw [hflen]; exact lt_irrefl _)]
        simp [List.findIdx_cons]
      rw [List.pairwise_append]
      refine ⟨?_, List.pairwise_singleton _ _, ?_⟩
      · apply ih.imp_of_mem
        intro x y hx hy hxy
        rw [hidx x hx, hidx y hy]
        exact hxy
      · intro x hx b hb
        rw [List.mem_singleton] at hb
        subst hb
        rw [hidx x hx, hidxa]
        have hxl : x ∈ l := (mem_insertionKeys l x).mp hx
        exact List.findIdx_lt_length_of_exists ⟨x, hxl, by simp⟩

/-- Two members of a pairwise-ordered list form a two-element sublist
when the relation rules out the opposite order. -/
theorem pair_sublist_of_pairwise {α : Type} {R : α → α → Prop} :
    ∀ (l : List α), l.Pairwise R → ∀ a b : α, a ∈ l → b ∈ l → a ≠ b → ¬ R b a →
      List.Sublist [a, b] l := by
  intro l
  induction l with
  | nil =>
    intro hp a b ha
    simp at ha
  | cons x t ih =>
    intro hp a b ha hb hab hnR
    rw [List.pairwise_cons] at hp
    rcases List.mem_cons.mp ha with hax | hat
    · have hbt : b ∈ t := by
        rcases List.mem_cons.mp hb with hbx | hbt
        · exact absurd (hax.trans hbx.symm) hab
        · exact hbt
      rw [hax]
      exact List.Sublist.cons₂ x (List.singleton_sublist.mpr hbt)
    · rcases List.mem_cons.mp hb with hbx | hbt
      · exfalso
        apply hnR
        rw [hbx]
        exact hp.1 a hat
      · exact List.Sublist.cons x (ih hp.2 a b hat hbt hab hnR)

/-- In a list with duplicate-free keys, an entry is determined by its
key. -/
theorem eq_of_mem_of_nodup_keys :
    ∀ (l : List (String × ℚ)), (l.map Prod.fst).Nodup →
      ∀ p q : String × ℚ, p ∈ l → q ∈ l → p.1 = q.1 → p = q := by
  intro l
  induction l with
  | nil =>
    intro h p q hp
    simp at hp
  | cons x t ih =>
    intro h p q hp hq hfst
    simp only [List.map_cons, List.nodup_cons] at h
    rcases List.mem_cons.mp hp with hpx | hpt
    · rcases List.mem_cons.mp hq with hqx | hqt
      · rw [hpx, hqx]
      · exfalso
        apply h.1
        have hx1 : x.1 = q.1 := by rw [← hpx, hfst]
        rw [hx1]
        exact List.mem_map.mpr ⟨q, hqt, rfl⟩
    · rcases List.mem_cons.mp hq with hqx | hqt
      · exfalso
        apply h.1
        have hx1 : x.1 = p.1 := by rw [← hqx, ← hfst]
        rw [hx1]
        exact List.mem_map.mpr ⟨p, hpt, rfl⟩
      · exact ih h.2 p q hpt hqt hfst

/-- The sort comparator is transitive. -/
theorem byDescTotal_trans (a b c : String × ℚ)
    (hab : byDescTotal a b) (hbc : byDescTotal b c) : byDescTotal a c := by
  simp only [byDescTotal, decide_eq_true_eq] at hab hbc ⊢
  exact le_trans hbc hab

/-- The sort comparator is total. -/
theorem byDescTotal_total (a b : String × ℚ) :
    byDescTotal a b || byDescTotal b a := by
  simp only [byDescTotal, Bool.or_eq_true, decide_eq_true_eq]
  exact le_total b.2 a.2

/-- First-occurrence position of a category, transported along the
category projection. -/
theorem catFirstIdx_eq (es : List Expense) (c : String) :
    catFirstIdx es c = (es.map Expense.category).findIdx (fun x => x = c) := by
  unfold catFirstIdx
  induction es with
  | nil => rfl
  | cons e t ih =>
    by_cases h : e.category = c <;>
      simp [List.findIdx_cons, h, ih]

/-- Full specification of the displayed top category for a non-empty
list: it is a category of the list whose per-category sum is maximal
and, among maximal categories, whose first occurrence comes earliest in
the stored order (the stable descending sort keeps the first-inserted
key in front on ties). -/
theorem topCategory_spec (expenses : List Expense) (hne : expenses ≠ []) :
    ∃ c : String,
      (updateSummary expenses).topCategory = some c ∧
      c ∈ expenses.map Expense.category ∧
      (∀ d ∈ expenses.map Expense.category,
        categorySum expenses d ≤ categorySum expenses c) ∧
      (∀ d ∈ expenses.map Expense.category,
        categorySum expenses d = categorySum expenses c →
        catFirstIdx expenses c ≤ catFirstIdx expenses d) := by
  have hmapne : expenses.map Expense.category ≠ [] := by
    intro hcontra
    exact hne (List.map_eq_nil_iff.mp hcontra)
  obtain ⟨c0, hc0⟩ := List.exists_mem_of_ne_nil _ hmapne
  have hentne : categoryTotals expenses ≠ [] := by
    intro hc
    have hk := (mem_insertionKeys (expenses.map Expense.category) c0).mpr hc0
    rw [← keys_categoryTotals, hc] at hk
    exact List.not_mem_nil c0 hk
  have hsortedne : (categoryTotals expenses).mergeSort byDescTotal ≠ [] := by
    intro hs
    apply hentne
    have hperm := List.mergeSort_perm (categoryTotals expenses) byDescTotal
    rw [hs] at hperm
    exact (List.perm_nil.mp hperm.symm).symm ▸ rfl
  obtain ⟨ct, rest, hcons⟩ := List.exists_cons_of_ne_nil hsortedne
  obtain ⟨c, t⟩ := ct
  have hperm := List.mergeSort_perm (categoryTotals expenses) byDescTotal
  have hmem_head : (c, t) ∈ categoryTotals expenses := by
    apply hperm.mem_iff.mp
    rw [hcons]
    exact List.mem_cons_self _ _
  have ht : t = categorySum expenses c := value_categoryTotals expenses (c, t) hmem_head
  have hck : c ∈ (categoryTotals expenses).map Prod.fst :=
    List.mem_map.mpr ⟨(c, t), hmem_head, rfl⟩
  have hc_memcat : c ∈ expenses.map Expense.category := by
    rw [keys_categoryTotals] at hck
    exact (mem_insertionKeys _ c).mp hck
  have hlen : ¬ expenses.length = 0 := by
    simpa [List.length_eq_zero] using hne
  have htop : (updateSummary expenses).topCategory = some c := by
    simp [updateSummary, hlen, hcons]
  have hsorted_pairwise :
      ((categoryTotals expenses).mergeSort byDescTotal).Pairwise
        (fun a b => byDescTotal a b) :=
    List.sorted_mergeSort byDescTotal_trans byDescTotal_total _
  have hmax : ∀ p ∈ categoryTotals expenses, p.2 ≤ t := by
    intro p hp
    have hp2 : p ∈ (categoryTotals expenses).mergeSort byDescTotal :=
      hperm.mem_iff.mpr hp
    rw [hcons] at hp2
    rcases List.mem_cons.mp hp2 with rfl | hp2
    · exact le_refl _
    · have hpw := hcons ▸ hsorted_pairwise
      have := (List.pairwise_cons.mp hpw).1 p hp2
      simpa [byDescTotal] using this
  have hmaxcat : ∀ d ∈ expenses.map Expense.category,
      categorySum expenses d ≤ categorySum expenses c := by
    intro d hd
    have hent := entry_of_mem_category expenses d hd
    have hle := hmax _ hent
    rw [← ht]
    exact hle
  refine ⟨c, htop, hc_memcat, hmaxcat, ?_⟩
  intro d hd hsum
  by_contra hgt
  push_neg at hgt
  have hdc : d ≠ c := by
    intro hdc
    rw [hdc] at hgt
    exact lt_irrefl _ hgt
  have hnodupkeys : ((categoryTotals expenses).map Prod.fst).Nodup := by
    rw [keys_categoryTotals]
    exact nodup_insertionKeys _
  have hnodupent : (categoryTotals expenses).Nodup :=
    List.Nodup.of_map _ hnodupkeys
  have hnodupsorted : ((categoryTotals expenses).mergeSort byDescTotal).Nodup :=
    hperm.nodup_iff.mpr hnodupent
  have hkpw : ((categoryTotals expenses).map Prod.fst).Pairwise
      (fun a b => catFirstIdx expenses a < catFirstIdx expenses b) := by
    rw [keys_categoryTotals]
    apply (pairwise_insertionKeys (expenses.map Expense.category)).imp
    intro a b hab
    rw [catFirstIdx_eq, catFirstIdx_eq]
    exact hab
  have hdk : d ∈ (categoryTotals expenses).map Prod.fst := by
    rw [keys_categoryTotals]
    exact (mem_insertionKeys _ d).mpr hd
  have hpairkeys : List.Sublist [d, c] ((categoryTotals expenses).map Prod.fst) :=
    pair_sublist_of_pairwise _ hkpw d c hdk hck hdc
      (fun hR => absurd hgt (not_lt.mpr (le_of_lt hR)))
  obtain ⟨l2, hl2sub, hl2map⟩ := List.sublist_map_iff.mp hpairkeys
  rcases l2 with _ | ⟨pd, l2t⟩
  · simp at hl2map
  rcases l2t with _ | ⟨pc, l2tt⟩
  · simp at hl2map
  rcases l2tt with _ | ⟨junk, l2ttt⟩
  swap
  · simp at hl2map
  simp only [List.map_cons, List.map_nil] at hl2map
  have hpd1 : d = pd.1 := by
    injection hl2map with h1 h2
  have hpc1 : c = pc.1 := by
    injection hl2map with h1 h2
    injection h2 with h3 h4
  have hpd_mem : pd ∈ categoryTotals expenses := hl2sub.subset (by simp)
  have hpc_mem : pc ∈ categoryTotals expenses := hl2sub.subset (by simp)
  have hpdv := value_categoryTotals expenses pd hpd_mem
  have hpcv := value_categoryTotals expenses pc hpc_mem
  have hbd : byDescTotal pd pc := by
    simp only [byDescTotal, decide_eq_true_eq]
    rw [hpdv, hpcv, ← hpd1, ← hpc1, ← hsum]
  have hsubsorted :
      List.Sublist [pd, pc] ((categoryTotals expenses).mergeSort byDescTotal) :=
    List.pair_sublist_mergeSort byDescTotal_trans byDescTotal_total hbd hl2sub
  have hpc_eq : pc = (c, t) :=
    eq_of_mem_of_nodup_keys _ hnodupkeys pc (c, t) hpc_mem hmem_head (by rw [← hpc1])
  rw [hpc_eq, hcons] at hsubsorted
  cases hsubsorted with
  | cons a h2 =>
    have hct_rest : (c, t) ∈ rest := h2.subset (by simp)
    have hnos := hcons ▸ hnodupsorted
    exact (List.nodup_cons.mp hnos).1 hct_rest
  | cons₂ a h2 =>
    exact hdc (by simpa using hpd1)

/-- C7: for every non-empty list the displayed top category is a
category of the list whose per-category amount sum (group by category,
sum amounts) is maximal; and on the spec's example list the summary is
total `180`, count `3`, top category `food`. -/
theorem c7_top_category_grouping :
    (∀ expenses : List Expense, expenses ≠ [] →
      ∃ c : String,
        (updateSummary expenses).topCategory = some c ∧
        c ∈ expenses.map Expense.category ∧
        ∀ d ∈ expenses.map Expense.category,
          categorySum expenses d ≤ categorySum expenses c) ∧
    updateSummary summaryDemoList =
      { total := 180, count := 3, topCategory := some foodCat } := by
  constructor
  · intro expenses hne
    obtain ⟨c, h1, h2, h3, -⟩ := topCategory_spec expenses hne
    exact ⟨c, h1, h2, h3⟩
  · have hct : categoryTotals summaryDemoList = [(foodCat, 150), (transportCat, 30)] := by
      norm_num [categoryTotals, categoryStep, summaryDemoList, summaryDemoFood1,
        summaryDemoFood2, summaryDemoTransport, foodCat, transportCat]
      decide
    have hsorted :
        [(foodCat, (150 : ℚ)), (transportCat, 30)].mergeSort byDescTotal =
          [(foodCat, 150), (transportCat, 30)] := by
      apply List.mergeSort_of_sorted
      refine List.Pairwise.cons ?_ (List.pairwise_singleton _ _)
      intro p hp
      rw [List.mem_singleton] at hp
      subst hp
      simp only [byDescTotal, decide_eq_true_eq]
      norm_num
    have htotal : summaryDemoList.foldl (fun sum e => sum + e.amount) 0 = 180 := by
      norm_num [summaryDemoList, summaryDemoFood1, summaryDemoFood2, summaryDemoTransport]
    have hlen : summaryDemoList.length = 3 := rfl
    simp only [updateSummary, htotal, hlen, hct, hsorted]
    simp

/-- Witness for C7 at the spec's example list. -/
theorem c7_witness :
    ∃ c : String,
      (updateSummary summaryDemoList).topCategory = some c ∧
      c ∈ summaryDemoList.map Expense.category ∧
      ∀ d ∈ summaryDemoList.map Expense.category,
        categorySum summaryDemoList d ≤ categorySum summaryDemoList c :=
  c7_top_category_grouping.1 summaryDemoList (by simp [summaryDemoList])

/-- C10: for every non-empty list the top category is a deterministic
function of the list — a maximal-sum category whose first occurrence
comes earliest in the stored (newest-first) order among all categories
tying for the maximal sum. -/
theorem c10_top_category_tie_break (expenses : List Expense) (hne : expenses ≠ []) :
    ∃ c : String,
      (updateSummary expenses).topCategory = some c ∧
      c ∈ expenses.map Expense.category ∧
      (∀ d ∈ expenses.map Expense.category,
        categorySum expenses d ≤ categorySum expenses c) ∧
      (∀ d ∈ expenses.map Expense.category,
        categorySum expenses d = categorySum expenses c →
        catFirstIdx expenses c ≤ catFirstIdx expenses d) :=
  topCategory_spec expenses hne

/-- Witness for C10 on a concrete two-category tie. -/
theorem c10_witness :
    ∃ c : String,
      (updateSummary tieDemoList).topCategory = some c ∧
      c ∈ tieDemoList.map Expense.category ∧
      (∀ d ∈ tieDemoList.map Expense.category,
        categorySum tieDemoList d ≤ categorySum tieDemoList c) ∧
      (∀ d ∈ tieDemoList.map Expense.category,
        categorySum tieDemoList d = categorySum tieDemoList c →
        catFirstIdx tieDemoList c ≤ catFirstIdx tieDemoList d) :=
  c10_top_category_tie_break tieDemoList (by simp [tieDemoList])

end ExpenseTracker
